import Mathlib

/-!
# BHController (or_owd_controller)

A shallow embedding of `src/BHController.cpp`: the OpenRAVE controller that
forwards finger commands to the hand driver and mirrors the driver's
`BHState` feedback into the simulated robot.

Conventions of the embedding:

* the joint values (`OpenRAVE::dReal`, `float64`) are only ever copied by the
  controller, never computed on, so the value type is a parameter `α`;
* `std::vector<T>` is `List T`; an out-of-range `operator[]` and a failed
  `BOOST_ASSERT` end the run, which is the result `none`;
* `int` to `size_t` conversion is reduction modulo `2 ^ 64`;
* the two service clients are functions from the request to the outcome of
  the call, so that every behaviour of the remote side is covered;
* `RAVELOG_*` output is collected in the field `log_`.
-/

namespace BHController

/-! ## Data model -/

/-- Modelled from the spec: the notification timestamp (`ros::Time`, declared
outside this repository), a pair of seconds and nanoseconds. -/
structure Time where
  sec : Nat
  nsec : Nat
deriving DecidableEq, Repr

/-- Modelled from the spec: "strictly earlier" on timestamps, the
lexicographic comparison of `ros::Time::operator<`. -/
def Time.lt (a b : Time) : Bool :=
  decide (a.sec < b.sec) || (decide (a.sec = b.sec) && decide (a.nsec < b.nsec))

/-- Non-strict order on timestamps: `a` is not later than `b`. -/
def Time.le (a b : Time) : Prop := Time.lt b a = false

instance (a b : Time) : Decidable (Time.le a b) := by
  unfold Time.le; infer_instance

/-- The message header (`std_msgs/Header`), of which the controller reads
the stamp only. -/
structure Header where
  stamp : Time
deriving DecidableEq, Repr

/-- The hand state notification `owd_msgs::BHState`, restricted to the fields
the controller reads: the header, the finger positions and the `state` byte. -/
structure BHState (α : Type) where
  header : Header
  positions : List α
  state : Nat
deriving DecidableEq, Repr

/-- Response of the `MoveHand` and `ResetHand` services. -/
structure Response where
  ok : Bool
  reason : String
deriving DecidableEq, Repr

/-- Outcome of `ros::ServiceClient::call`: whether the call completed, and
the response object as the call left it. -/
structure CallOutcome where
  completed : Bool
  response : Response
deriving DecidableEq, Repr

/-- Modelled from the spec: the move kinds of `owd_msgs::MoveHand::Request`,
of which the controller uses "absolute position" only. -/
inductive MoveType where
  | movetype_position
  | movetype_velocity
deriving DecidableEq, Repr

/-- The request `owd_msgs::MoveHand::Request`. -/
structure MoveHandRequest (α : Type) where
  movetype : MoveType
  positions : List α
deriving DecidableEq, Repr

/-- The request `owd_msgs::ResetHand::Request`, which has no payload. -/
structure ResetHandRequest where
deriving DecidableEq, Repr

/-- Lines written through `RAVELOG_ERROR` and `RAVELOG_WARN`. -/
inductive LogEntry where
  | resetFailedReason (reason : String)
  | resetFailed
  | moveFailedReason (reason : String)
  | moveFailedUnknown
  | setPathUnsupported
  | outOfOrderStamp
  | wrongDofCount (received expected : Int)
deriving DecidableEq, Repr

/-- Modelled from the spec: the simulated robot (`OpenRAVE::RobotBase`,
declared outside this repository), a holder of the joint-value vector. -/
structure Robot (α : Type) where
  dof_values : List α
deriving DecidableEq, Repr

/-- Modelled from the spec: `getDOFValues() -> ordered sequence of floats`. -/
def Robot.GetDOFValues {α : Type} (r : Robot α) : List α := r.dof_values

/-- Modelled from the spec: `setDOFValues(ordered sequence of floats)`. -/
def Robot.SetDOFValues {α : Type} (_r : Robot α) (values : List α) : Robot α :=
  { dof_values := values }

/-- The members of `BHController` that the methods read and write, together
with the log output. `robot_` is `none` for a null pointer and
`current_bhstate_` is `none` for a null `BHState::ConstPtr`. -/
structure State (α : Type) where
  robot_ : Option (Robot α)
  dof_indices_ : List Int
  current_bhstate_ : Option (BHState α)
  log_ : List LogEntry
deriving DecidableEq, Repr

/-! ## Machine integers -/

/-- Conversion of an `int` to `size_t` (64 bits). -/
def size_t_of_int (i : Int) : Nat := (i % (2 : Int) ^ 64).toNat

/-- The conversion `static_cast<int>` of a `size_t` (32-bit two's complement). -/
def int_of_size_t (n : Nat) : Int :=
  if n % 2 ^ 32 < 2 ^ 31 then ((n % 2 ^ 32 : Nat) : Int)
  else ((n % 2 ^ 32 : Nat) : Int) - (2 : Int) ^ 32

/-! ## Operations -/

/-- The constructor: no robot, no DOF indices, no cached state. -/
def construct (α : Type) : State α :=
  { robot_ := none, dof_indices_ := [], current_bhstate_ := none, log_ := [] }

/-- `BHController::Init`. Both assertions must hold; the subscription and the
service clients are set up and the call answers `true`. -/
def Init {α : Type} (self : State α) (robot : Option (Robot α))
    (dof_indices : List Int) (ctrl_transform : Int) : Option (Bool × State α) :=
  if robot.isSome && decide (ctrl_transform = 0) then
    if dof_indices.length = 4 then
      some (true, { self with robot_ := robot, dof_indices_ := dof_indices })
    else none
  else none

/-- The first condition of `bhstateCallback`: a state is cached and the
incoming stamp is strictly earlier than the cached one. -/
def stampRegresses {α : Type} (self : State α) (new_bhstate : BHState α) : Bool :=
  match self.current_bhstate_ with
  | some cur => Time.lt new_bhstate.header.stamp cur.header.stamp
  | none => false

/-- `BHController::bhstateCallback`. -/
def bhstateCallback {α : Type} (self : State α) (new_bhstate : BHState α) : State α :=
  if stampRegresses self new_bhstate then
    { self with current_bhstate_ := none, log_ := self.log_ ++ [LogEntry.outOfOrderStamp] }
  else if new_bhstate.positions.length ≠ self.dof_indices_.length then
    { self with log_ := self.log_ ++
        [LogEntry.wrongDofCount (int_of_size_t new_bhstate.positions.length)
          (int_of_size_t self.dof_indices_.length)] }
  else { self with current_bhstate_ := some new_bhstate }

/-- The drain `queue_.callAvailable()`: every pending notification goes
through the callback, oldest first. -/
def callAvailable {α : Type} (self : State α) (pending : List (BHState α)) : State α :=
  pending.foldl bhstateCallback self

/-- The `for` loop of `SimulationStep`, entered at position `index` of the DOF
index list with `rest` the indices from that position on. -/
def copyLoop {α : Type} (positions : List α) : Nat → List Int → List α → Option (List α)
  | _, [], dof_values => some dof_values
  | index, d :: rest, dof_values =>
    let dof_index := size_t_of_int d
    if dof_index < dof_values.length then
      match positions[index]? with
      | some p => copyLoop positions (index + 1) rest (dof_values.set dof_index p)
      | none => none
    else none

/-- `BHController::SimulationStep`, with `pending` the notifications waiting
in the callback queue. -/
def SimulationStep {α : Type} (self : State α) (_time_ellapsed : α)
    (pending : List (BHState α)) : Option (State α) :=
  let s := callAvailable self pending
  match s.current_bhstate_ with
  | some cur =>
    match s.robot_ with
    | some robot =>
      match copyLoop cur.positions 0 s.dof_indices_ robot.GetDOFValues with
      | some dof_values => some { s with robot_ := some (robot.SetDOFValues dof_values) }
      | none => none
    | none => none
  | none => some s

/-- `BHController::Reset`. -/
def Reset {α : Type} (self : State α) (_options : Int)
    (srv_reset : ResetHandRequest → CallOutcome) : State α :=
  let s := { self with current_bhstate_ := none }
  let out := srv_reset {}
  let success := out.completed && out.response.ok
  if !success && !out.response.reason.isEmpty then
    { s with log_ := s.log_ ++ [LogEntry.resetFailedReason out.response.reason] }
  else if !success then
    { s with log_ := s.log_ ++ [LogEntry.resetFailed] }
  else s

/-- `BHController::IsDone`, with `state_done` the value of the constant
`owd_msgs::BHState::state_done`. -/
def IsDone {α : Type} (state_done : Nat) (self : State α) : Bool :=
  match self.current_bhstate_ with
  | none => true
  | some cur => decide (cur.state = state_done)

/-- `BHController::GetRobot`. -/
def GetRobot {α : Type} (self : State α) : Option (Robot α) := self.robot_

/-- `BHController::GetControlDOFIndices`. -/
def GetControlDOFIndices {α : Type} (self : State α) : List Int := self.dof_indices_

/-- `BHController::IsControlTransformation`. -/
def IsControlTransformation {α : Type} (_self : State α) : Int := 0

/-- The `for` loop of `SetDesired` that fills the request, entered at `i`
with `fuel` iterations left. -/
def fillLoop {α : Type} (values : List α) : Nat → Nat → List α → Option (List α)
  | 0, _, positions => some positions
  | fuel + 1, i, positions =>
    match values[i]? with
    | some v =>
      if i < positions.length then fillLoop values fuel (i + 1) (positions.set i v)
      else none
    | none => none

/-- `BHController::SetDesired`; `transform` is `none` for a null pointer. -/
def SetDesired {α : Type} [Zero α] (self : State α) (values : List α)
    (transform : Option Unit) (srv_move : MoveHandRequest α → CallOutcome) :
    Option (Bool × State α) :=
  if decide (values.length = self.dof_indices_.length) && transform.isNone then
    let num_dofs := self.dof_indices_.length
    match fillLoop values num_dofs 0 (List.replicate num_dofs 0) with
    | some positions =>
      let out := srv_move { movetype := MoveType.movetype_position, positions := positions }
      let success := out.completed && out.response.ok
      if !success && !out.response.reason.isEmpty then
        some (false, { self with log_ := self.log_ ++
          [LogEntry.moveFailedReason out.response.reason] })
      else if !success then
        some (false, { self with log_ := self.log_ ++ [LogEntry.moveFailedUnknown] })
      else some (true, self)
    | none => none
  else none

/-- `BHController::SetPath`. -/
def SetPath {α : Type} (self : State α) (_traj : Unit) : Bool × State α :=
  (true, { self with log_ := self.log_ ++ [LogEntry.setPathUnsupported] })

/-- Reachability after a successful `Init` of a freshly constructed
controller, through the notification handler, `SimulationStep`, `Reset`,
`SetDesired` and `SetPath`. -/
inductive Reachable {α : Type} [Zero α] : State α → Prop where
  | init (robot : Option (Robot α)) (dof_indices : List Int) (ctrl_transform : Int)
      (s : State α) :
      Init (construct α) robot dof_indices ctrl_transform = some (true, s) → Reachable s
  | callback (s : State α) (m : BHState α) :
      Reachable s → Reachable (bhstateCallback s m)
  | step (s s' : State α) (time_ellapsed : α) (pending : List (BHState α)) :
      Reachable s → SimulationStep s time_ellapsed pending = some s' → Reachable s'
  | reset (s : State α) (options : Int) (srv_reset : ResetHandRequest → CallOutcome) :
      Reachable s → Reachable (Reset s options srv_reset)
  | setDesired (s s' : State α) (values : List α) (transform : Option Unit)
      (srv_move : MoveHandRequest α → CallOutcome) (b : Bool) :
      Reachable s → SetDesired s values transform srv_move = some (b, s') → Reachable s'
  | setPath (s : State α) (traj : Unit) :
      Reachable s → Reachable (SetPath s traj).2

/-! ## Sample data

The scenario of the specification: DOF index list `[3, 4, 5, 6]` on a robot
of seven joints, with integer stand-ins for the joint values. -/

/-- A robot of seven joints, all at `0`. -/
def sampleRobot : Robot Int := { dof_values := [0, 0, 0, 0, 0, 0, 0] }

/-- The controller right after `Init` with the DOF index list `[3, 4, 5, 6]`. -/
def sampleHand : State Int :=
  { robot_ := some sampleRobot, dof_indices_ := [3, 4, 5, 6],
    current_bhstate_ := none, log_ := [] }

/-- Notification stamped `10`, four positions, flag `2` (moving). -/
def notifA : BHState Int :=
  { header := { stamp := { sec := 10, nsec := 0 } }, positions := [1, 2, 3, 4], state := 2 }

/-- Notification stamped `5`, with an empty positions list. -/
def notifB : BHState Int :=
  { header := { stamp := { sec := 5, nsec := 0 } }, positions := [], state := 2 }

/-- Notification stamped `11`, four positions, flag `1`. -/
def notifC : BHState Int :=
  { header := { stamp := { sec := 11, nsec := 0 } }, positions := [5, 6, 7, 8], state := 1 }

/-- Notification stamped `7`, four positions, flag `1`. -/
def notifD : BHState Int :=
  { header := { stamp := { sec := 7, nsec := 0 } }, positions := [5, 6, 7, 8], state := 1 }

/-- The sample controller with `notifA` cached. -/
def sampleHandA : State Int := { sampleHand with current_bhstate_ := some notifA }

/-- The sample controller with a repeated DOF index: `[3, 3, 4, 5]`. -/
def repeatedHand : State Int :=
  { robot_ := some sampleRobot, dof_indices_ := [3, 3, 4, 5],
    current_bhstate_ := some notifA, log_ := [] }

/-- A hand driver whose move service completes and answers
`ok = false, reason = "jam"`. -/
def jamService : MoveHandRequest Int → CallOutcome :=
  fun _ => { completed := true, response := { ok := false, reason := "jam" } }

/-- A hand driver whose reset service does not complete. -/
def deadService : ResetHandRequest → CallOutcome :=
  fun _ => { completed := false, response := { ok := false, reason := "" } }

/-- Invariant I1 of the data model: a cached state has as many positions as
the DOF index list has entries. -/
def InvariantI1 {α : Type} (s : State α) : Prop :=
  ∀ cur, s.current_bhstate_ = some cur → cur.positions.length = s.dof_indices_.length

/-! ## Timestamps -/

theorem Time.lt_irrefl (a : Time) : Time.lt a a = false := by
  simp [Time.lt]

theorem Time.lt_asymm {a b : Time} (h : Time.lt a b = true) : Time.lt b a = false := by
  simp only [Time.lt, Bool.or_eq_true, Bool.and_eq_true, decide_eq_true_eq,
    Bool.or_eq_false_iff, Bool.and_eq_false_iff, decide_eq_false_iff_not] at h ⊢
  omega

theorem Time.le_refl (a : Time) : Time.le a a := Time.lt_irrefl a

theorem Time.le_trans {a b c : Time} (hab : Time.le a b) (hbc : Time.le b c) :
    Time.le a c := by
  simp only [Time.le, Time.lt, Bool.or_eq_true, Bool.and_eq_true, decide_eq_true_eq,
    Bool.or_eq_false_iff, Bool.and_eq_false_iff, decide_eq_false_iff_not] at hab hbc ⊢
  omega

/-! ## The notification handler -/

theorem bhstateCallback_dof_indices {α : Type} (s : State α) (m : BHState α) :
    (bhstateCallback s m).dof_indices_ = s.dof_indices_ := by
  unfold bhstateCallback
  split
  · rfl
  · split <;> rfl

theorem bhstateCallback_robot {α : Type} (s : State α) (m : BHState α) :
    (bhstateCallback s m).robot_ = s.robot_ := by
  unfold bhstateCallback
  split
  · rfl
  · split <;> rfl

theorem callAvailable_dof_indices {α : Type} (pending : List (BHState α)) (s : State α) :
    (callAvailable s pending).dof_indices_ = s.dof_indices_ := by
  induction pending generalizing s with
  | nil => rfl
  | cons m ms ih =>
    show (callAvailable (bhstateCallback s m) ms).dof_indices_ = s.dof_indices_
    rw [ih, bhstateCallback_dof_indices]

theorem callAvailable_robot {α : Type} (pending : List (BHState α)) (s : State α) :
    (callAvailable s pending).robot_ = s.robot_ := by
  induction pending generalizing s with
  | nil => rfl
  | cons m ms ih =>
    show (callAvailable (bhstateCallback s m) ms).robot_ = s.robot_
    rw [ih, bhstateCallback_robot]

theorem callAvailable_snoc {α : Type} (s : State α) (ms : List (BHState α)) (m : BHState α) :
    callAvailable s (ms ++ [m]) = bhstateCallback (callAvailable s ms) m := by
  simp [callAvailable, List.foldl_append]

/-- A notification that passes both checks becomes the cached state. -/
theorem bhstateCallback_accept {α : Type} (s : State α) (m : BHState α)
    (hord : stampRegresses s m = false)
    (hlen : m.positions.length = s.dof_indices_.length) :
    (bhstateCallback s m).current_bhstate_ = some m := by
  simp [bhstateCallback, hord, hlen]

/-- Whatever the handler caches has the length of the DOF index list, when
that held before. -/
theorem bhstateCallback_positions_length {α : Type} (s : State α) (m : BHState α)
    (hinv : ∀ cur, s.current_bhstate_ = some cur →
      cur.positions.length = s.dof_indices_.length) :
    ∀ cur, (bhstateCallback s m).current_bhstate_ = some cur →
      cur.positions.length = (bhstateCallback s m).dof_indices_.length := by
  intro cur hcur
  rw [bhstateCallback_dof_indices]
  unfold bhstateCallback at hcur
  split at hcur
  · simp at hcur
  · split at hcur
    · exact hinv cur hcur
    · rename_i hlen
      simp only [ne_eq, Decidable.not_not] at hlen
      simp only [Option.some.injEq] at hcur
      rw [← hcur]; exact hlen

/-- One handler call never moves a cached stamp backwards. -/
theorem bhstateCallback_stamp_le {α : Type} (s : State α) (m : BHState α)
    (c1 c2 : BHState α) (h1 : s.current_bhstate_ = some c1)
    (h2 : (bhstateCallback s m).current_bhstate_ = some c2) :
    Time.le c1.header.stamp c2.header.stamp := by
  unfold bhstateCallback at h2
  split at h2
  · simp at h2
  · rename_i hreg
    split at h2
    · rw [h1] at h2
      simp only [Option.some.injEq] at h2
      rw [h2]; exact Time.le_refl _
    · simp only [Option.some.injEq] at h2
      rw [← h2]
      simp only [stampRegresses, h1, Bool.not_eq_true] at hreg
      exact hreg

/-- Strictly increasing, well-shaped notifications are all accepted: the
cache ends up holding the last one. -/
theorem callAvailable_increasing {α : Type} (msgs : List (BHState α)) (s : State α)
    (hne : msgs ≠ [])
    (hhead : ∀ m, msgs.head? = some m → stampRegresses s m = false)
    (hinc : List.Chain' (fun a b : BHState α => Time.lt a.header.stamp b.header.stamp = true) msgs)
    (hlen : ∀ m ∈ msgs, m.positions.length = s.dof_indices_.length) :
    (callAvailable s msgs).current_bhstate_ = some (msgs.getLast hne) := by
  induction msgs generalizing s with
  | nil => exact absurd rfl hne
  | cons m ms ih =>
    have hacc : (bhstateCallback s m).current_bhstate_ = some m :=
      bhstateCallback_accept s m (hhead m rfl) (hlen m (List.mem_cons_self _ _))
    show (callAvailable (bhstateCallback s m) ms).current_bhstate_ = _
    cases ms with
    | nil => simpa [callAvailable] using hacc
    | cons m2 rest =>
      rw [List.getLast_cons (List.cons_ne_nil m2 rest)]
      apply ih (bhstateCallback s m) (List.cons_ne_nil m2 rest)
      · intro m' hm'
        simp only [List.head?_cons, Option.some.injEq] at hm'
        subst hm'
        have hlt := (List.chain'_cons.mp hinc).1
        simp only [stampRegresses, hacc]
        exact Time.lt_asymm hlt
      · exact (List.chain'_cons.mp hinc).2
      · intro m' hm'
        rw [bhstateCallback_dof_indices]
        exact hlen m' (List.mem_cons_of_mem _ hm')

/-! ## The copy loop of `SimulationStep` -/

/-- A completed copy loop keeps the length of the vector and every entry
that is not addressed by one of the indices it went through. -/
theorem copyLoop_frame {α : Type} (positions : List α) (rest : List Int) :
    ∀ (index : Nat) (vals vals' : List α), copyLoop positions index rest vals = some vals' →
      vals'.length = vals.length ∧
      ∀ i, (∀ d ∈ rest, size_t_of_int d ≠ i) → vals'[i]? = vals[i]? := by
  induction rest with
  | nil =>
    intro index vals vals' h
    simp only [copyLoop, Option.some.injEq] at h
    subst h
    exact ⟨rfl, fun _ _ => rfl⟩
  | cons d rest ih =>
    intro index vals vals' h
    simp only [copyLoop] at h
    split at h
    · split at h
      · rename_i p _
        obtain ⟨hl, hf⟩ := ih _ _ _ h
        refine ⟨by rw [hl, List.length_set], ?_⟩
        intro i hi
        rw [hf i (fun d' hd' => hi d' (List.mem_cons_of_mem _ hd'))]
        exact List.getElem?_set_ne (hi d (List.mem_cons_self _ _))
      · simp at h
    · simp at h

/-- The copy loop completes when every index is inside the vector and the
positions list is long enough. -/
theorem copyLoop_total {α : Type} (positions : List α) (rest : List Int) :
    ∀ (index : Nat) (vals : List α),
      (∀ d ∈ rest, size_t_of_int d < vals.length) →
      index + rest.length ≤ positions.length →
      ∃ vals', copyLoop positions index rest vals = some vals' := by
  induction rest with
  | nil => intro index vals _ _; exact ⟨vals, rfl⟩
  | cons d rest ih =>
    intro index vals hvalid hlen
    simp only [List.length_cons] at hlen
    have hd : size_t_of_int d < vals.length := hvalid d (List.mem_cons_self _ _)
    have hi : index < positions.length := by omega
    simp only [copyLoop, hd, if_true, List.getElem?_eq_getElem hi]
    apply ih
    · intro d' hd'
      rw [List.length_set]
      exact hvalid d' (List.mem_cons_of_mem _ hd')
    · omega

/-- After a completed copy loop, a position of the index list whose index is
not addressed again later holds the matching cached position. -/
theorem copyLoop_written {α : Type} (positions : List α) (rest : List Int) :
    ∀ (index : Nat) (vals vals' : List α), copyLoop positions index rest vals = some vals' →
      ∀ (k : Nat) (d : Int), rest[k]? = some d →
        (∀ (j : Nat) (d' : Int), k < j → rest[j]? = some d' →
          size_t_of_int d' ≠ size_t_of_int d) →
        ∃ p, positions[index + k]? = some p ∧ vals'[size_t_of_int d]? = some p := by
  induction rest with
  | nil => intro index vals vals' _ k d hk; simp at hk
  | cons d0 rest ih =>
    intro index vals vals' h k d hk hlater
    simp only [copyLoop] at h
    split at h
    · rename_i hd0
      split at h
      · rename_i p hp
        cases k with
        | zero =>
          simp only [List.getElem?_cons_zero, Option.some.injEq] at hk
          subst hk
          refine ⟨p, by simpa using hp, ?_⟩
          have hfr := (copyLoop_frame positions rest _ _ _ h).2 (size_t_of_int d0) (by
            intro d' hd'
            obtain ⟨j, hj⟩ := List.getElem?_of_mem hd'
            exact hlater (j + 1) d' (Nat.succ_pos j) (by simpa using hj))
          rw [hfr]
          simp [List.getElem?_set, hd0]
        | succ k =>
          simp only [List.getElem?_cons_succ] at hk
          obtain ⟨q, hq, hv⟩ := ih _ _ _ h k d hk (by
            intro j d' hj hd'
            exact hlater (j + 1) d' (Nat.succ_lt_succ hj) (by simpa using hd'))
          refine ⟨q, ?_, hv⟩
          rw [← hq]; congr 1; omega
      · simp at h
    · simp at h

/-! ## The request loop of `SetDesired` -/

/-- The loop overwrites the slots from `i` on with the values at the same
places. -/
theorem fillLoop_eq {α : Type} (values : List α) :
    ∀ (fuel i : Nat) (positions : List α), positions.length = values.length →
      i + fuel = values.length →
      fillLoop values fuel i positions = some (positions.take i ++ values.drop i) := by
  intro fuel
  induction fuel with
  | zero =>
    intro i positions hl hi
    simp only [Nat.add_zero] at hi
    simp [fillLoop, hi, ← hl]
  | succ fuel ih =>
    intro i positions hl hi
    have hiv : i < values.length := by omega
    have hip : i < positions.length := by omega
    simp only [fillLoop, List.getElem?_eq_getElem hiv, hip, if_true]
    rw [ih (i + 1) (positions.set i values[i]) (by rw [List.length_set, hl]) (by omega)]
    congr 1
    rw [List.take_succ, List.drop_eq_getElem_cons hiv]
    have h1 : List.take i (positions.set i values[i]) = List.take i positions := by
      apply List.ext_getElem?
      intro n
      by_cases hn : n < i
      · rw [List.getElem?_take_of_lt hn, List.getElem?_take_of_lt hn]
        exact List.getElem?_set_ne (by omega)
      · simp [List.getElem?_take_eq_none (Nat.le_of_not_lt hn)]
    have h2 : (positions.set i values[i])[i]? = some values[i] := by
      simp [List.getElem?_set, hip]
    rw [h1, h2]
    simp

/-! ## Claims on the notification handler -/

/-- C1: a non-empty run of notifications with strictly increasing stamps,
each with as many positions as the DOF index list has entries, processed in
order from an absent cache, leaves the cache holding the last notification. -/
theorem C1_increasing_run_caches_last {α : Type} (s : State α) (msgs : List (BHState α))
    (hne : msgs ≠ []) (habsent : s.current_bhstate_ = none)
    (hinc : List.Chain' (fun a b : BHState α =>
      Time.lt a.header.stamp b.header.stamp = true) msgs)
    (hlen : ∀ m ∈ msgs, m.positions.length = s.dof_indices_.length) :
    (callAvailable s msgs).current_bhstate_ = some (msgs.getLast hne) :=
  callAvailable_increasing msgs s hne
    (fun m _ => by simp [stampRegresses, habsent]) hinc hlen

/-- The run `notifA`, `notifC` (stamps 10 and 11) from the sample controller ends with `notifC` cached. -/
theorem C1_increasing_run_caches_last_witness :
    (callAvailable sampleHand [notifA, notifC]).current_bhstate_ = some notifC :=
  C1_increasing_run_caches_last sampleHand [notifA, notifC] (by simp) rfl
    (by simp [notifA, notifC, Time.lt]) (by simp [notifA, notifC, sampleHand])

/-- C2: with a state cached, a notification stamped strictly earlier than
the cached state clears the cache, whatever its positions and flag are. -/
theorem C2_earlier_stamp_clears_cache {α : Type} (s : State α) (cur m : BHState α)
    (hcache : s.current_bhstate_ = some cur)
    (hearlier : Time.lt m.header.stamp cur.header.stamp = true) :
    (bhstateCallback s m).current_bhstate_ = none := by
  simp [bhstateCallback, stampRegresses, hcache, hearlier]

/-- With `notifA` (stamp 10) cached, `notifB` (stamp 5) clears the cache. -/
theorem C2_earlier_stamp_clears_cache_witness :
    (bhstateCallback sampleHandA notifB).current_bhstate_ = none :=
  C2_earlier_stamp_clears_cache sampleHandA notifA notifB rfl (by decide)

/-- C3, as stated, fails: with `notifA` (stamp 10) cached, the notification
`notifB` (stamp 5, no positions, so of the wrong length) changes the cache,
which becomes absent. -/
theorem C3_counterexample :
    notifB.positions.length ≠ sampleHandA.dof_indices_.length ∧
    sampleHandA.current_bhstate_ = some notifA ∧
    (bhstateCallback sampleHandA notifB).current_bhstate_ = none ∧
    (bhstateCallback sampleHandA notifB).current_bhstate_ ≠ sampleHandA.current_bhstate_ := by
  decide

/-- C3, amended: a notification whose positions list has the wrong length
and whose stamp is not strictly earlier than the stamp of a cached state
leaves the cache as it was. -/
theorem C3_wrong_length_keeps_cache {α : Type} (s : State α) (m : BHState α)
    (hlen : m.positions.length ≠ s.dof_indices_.length)
    (hord : ∀ cur, s.current_bhstate_ = some cur →
      Time.lt m.header.stamp cur.header.stamp = false) :
    (bhstateCallback s m).current_bhstate_ = s.current_bhstate_ := by
  have hreg : stampRegresses s m = false := by
    unfold stampRegresses
    cases hc : s.current_bhstate_ with
    | none => rfl
    | some cur => exact hord cur hc
  simp [bhstateCallback, hreg, hlen]

/-- With `notifA` (stamp 10) cached, a notification stamped 11 with two positions leaves `notifA` cached. -/
theorem C3_wrong_length_keeps_cache_witness :
    (bhstateCallback sampleHandA { notifC with positions := [5, 6] }).current_bhstate_
      = some notifA :=
  C3_wrong_length_keeps_cache sampleHandA { notifC with positions := [5, 6] } (by decide)
    (by decide)

/-- C4: `IsDone` answers `true` exactly when the cache is absent or the
cached flag is the "done" value; so `true` on an absent cache, and `false`
on a cached state with another flag. -/
theorem C4_IsDone_iff {α : Type} (state_done : Nat) (s : State α) :
    (IsDone state_done s = true ↔
      (s.current_bhstate_ = none ∨
        ∃ cur, s.current_bhstate_ = some cur ∧ cur.state = state_done)) ∧
    (s.current_bhstate_ = none → IsDone state_done s = true) ∧
    (∀ cur, s.current_bhstate_ = some cur → cur.state ≠ state_done →
      IsDone state_done s = false) := by
  unfold IsDone
  cases hc : s.current_bhstate_ with
  | none => simp
  | some cur => simp

/-- With "done" value 1: `true` on the absent cache, `false` with `notifA` (flag 2) cached. -/
theorem C4_IsDone_iff_witness :
    IsDone 1 sampleHand = true ∧ IsDone 1 sampleHandA = false :=
  ⟨(C4_IsDone_iff 1 sampleHand).2.1 rfl,
   (C4_IsDone_iff 1 sampleHandA).2.2 notifA rfl (by decide)⟩

/-! ## Claims on `SimulationStep` -/

/-- C5, as stated, fails when the DOF index list repeats an index: with the
list `[3, 3, 4, 5]` and the cached positions `[1, 2, 3, 4]` (all indices
valid, lengths equal), the step leaves joint 3 at `2`, the position of the
second occurrence, not at `1`, the position matching list place 0. -/
theorem C5_counterexample :
    (∀ d ∈ repeatedHand.dof_indices_, size_t_of_int d < sampleRobot.dof_values.length) ∧
    notifA.positions.length = repeatedHand.dof_indices_.length ∧
    SimulationStep repeatedHand 0 [] =
      some { repeatedHand with robot_ := some { dof_values := [0, 0, 0, 2, 3, 4, 0] } } ∧
    repeatedHand.dof_indices_[0]? = some 3 ∧
    notifA.positions[0]? = some 1 ∧
    ([0, 0, 0, 2, 3, 4, 0] : List Int)[size_t_of_int 3]? ≠ notifA.positions[0]? := by
  decide

/-- C5, amended: with a state cached, a robot attached, every DOF index
inside the robot's vector and at least as many cached positions as DOF
indices, a step with nothing pending completes, and every place `k` of the
DOF index list whose index does not occur again at a later place has
`robot[dofIndices[k]] = cache.positions[k]`. -/
theorem C5_step_copies_cached_positions {α : Type} (s : State α) (cur : BHState α)
    (robot : Robot α) (t : α)
    (hcache : s.current_bhstate_ = some cur) (hrobot : s.robot_ = some robot)
    (hlen : s.dof_indices_.length ≤ cur.positions.length)
    (hvalid : ∀ d ∈ s.dof_indices_, size_t_of_int d < robot.dof_values.length) :
    ∃ s' robot', SimulationStep s t [] = some s' ∧ s'.robot_ = some robot' ∧
      ∀ (k : Nat) (d : Int), s.dof_indices_[k]? = some d →
        (∀ (j : Nat) (d' : Int), k < j → s.dof_indices_[j]? = some d' →
          size_t_of_int d' ≠ size_t_of_int d) →
        ∃ p, cur.positions[k]? = some p ∧
          robot'.dof_values[size_t_of_int d]? = some p := by
  obtain ⟨vals', hv⟩ := copyLoop_total cur.positions s.dof_indices_ 0 robot.dof_values
    hvalid (by omega)
  refine ⟨{ s with robot_ := some (robot.SetDOFValues vals') },
    robot.SetDOFValues vals', ?_, rfl, ?_⟩
  · simp [SimulationStep, callAvailable, hcache, hrobot, Robot.GetDOFValues, hv]
  · intro k d hk hlater
    obtain ⟨p, hp, hw⟩ := copyLoop_written cur.positions s.dof_indices_ 0 _ _ hv k d hk hlater
    exact ⟨p, by simpa using hp, hw⟩

/-- The sample controller with `notifA` cached and the DOF index list `[3, 4, 5, 6]`. -/
theorem C5_step_copies_cached_positions_witness :
    ∃ s' robot', SimulationStep sampleHandA 0 [] = some s' ∧ s'.robot_ = some robot' ∧
      ∀ (k : Nat) (d : Int), sampleHandA.dof_indices_[k]? = some d →
        (∀ (j : Nat) (d' : Int), k < j → sampleHandA.dof_indices_[j]? = some d' →
          size_t_of_int d' ≠ size_t_of_int d) →
        ∃ p, notifA.positions[k]? = some p ∧
          robot'.dof_values[size_t_of_int d]? = some p :=
  C5_step_copies_cached_positions sampleHandA notifA sampleRobot 0 rfl rfl (by decide)
    (by decide)

/-- C6: a step with nothing pending that completes keeps the length of the
robot's DOF vector and every entry whose index is not in the DOF index list;
with the cache absent it completes and changes nothing at all; with a state
cached it completes whenever the indices are inside the vector and the cached
positions are at least as many as the DOF indices. -/
theorem C6_step_frame {α : Type} (s : State α) (t : α) :
    (∀ s', SimulationStep s t [] = some s' →
      s'.dof_indices_ = s.dof_indices_ ∧ s'.current_bhstate_ = s.current_bhstate_ ∧
      ∀ robot, s.robot_ = some robot →
        ∃ robot', s'.robot_ = some robot' ∧
          robot'.dof_values.length = robot.dof_values.length ∧
          ∀ i, (∀ d ∈ s.dof_indices_, size_t_of_int d ≠ i) →
            robot'.dof_values[i]? = robot.dof_values[i]?) ∧
    (s.current_bhstate_ = none → SimulationStep s t [] = some s) ∧
    (∀ cur robot, s.current_bhstate_ = some cur → s.robot_ = some robot →
      s.dof_indices_.length ≤ cur.positions.length →
      (∀ d ∈ s.dof_indices_, size_t_of_int d < robot.dof_values.length) →
      ∃ s', SimulationStep s t [] = some s') := by
  refine ⟨?_, ?_, ?_⟩
  · intro s' hs'
    cases hc : s.current_bhstate_ with
    | none =>
      simp only [SimulationStep, callAvailable, List.foldl_nil, hc, Option.some.injEq] at hs'
      subst hs'
      exact ⟨rfl, hc, fun robot hr => ⟨robot, hr, rfl, fun _ _ => rfl⟩⟩
    | some cur =>
      cases hr : s.robot_ with
      | none => simp [SimulationStep, callAvailable, hc, hr] at hs'
      | some robot =>
        cases hv : copyLoop cur.positions 0 s.dof_indices_ robot.dof_values with
        | none => simp [SimulationStep, callAvailable, hc, hr, Robot.GetDOFValues, hv] at hs'
        | some vals' =>
          simp only [SimulationStep, callAvailable, List.foldl_nil, hc, hr,
            Robot.GetDOFValues, hv, Option.some.injEq] at hs'
          subst hs'
          refine ⟨rfl, rfl, ?_⟩
          intro r hr'
          simp only [Option.some.injEq] at hr'
          subst hr'
          obtain ⟨hl, hf⟩ := copyLoop_frame cur.positions s.dof_indices_ 0 _ _ hv
          exact ⟨robot.SetDOFValues vals', rfl, hl, hf⟩
  · intro hc
    simp [SimulationStep, callAvailable, hc]
  · intro cur robot hc hr hlen hvalid
    obtain ⟨vals', hv⟩ := copyLoop_total cur.positions s.dof_indices_ 0 robot.dof_values
      hvalid (by omega)
    exact ⟨{ s with robot_ := some (robot.SetDOFValues vals') },
      by simp [SimulationStep, callAvailable, hc, hr, Robot.GetDOFValues, hv]⟩

/-- The step on the sample controller, with the cache absent and with `notifA` cached. -/
theorem C6_step_frame_witness :
    SimulationStep sampleHand 0 [] = some sampleHand ∧
    ∃ s', SimulationStep sampleHandA 0 [] = some s' :=
  ⟨(C6_step_frame sampleHand 0).2.1 rfl,
   (C6_step_frame sampleHandA 0).2.2 notifA sampleRobot rfl rfl (by decide) (by decide)⟩

/-! ## Claims on the remote calls -/

/-- The request loop of `SetDesired` copies the values in order. -/
theorem fillLoop_values {α : Type} [Zero α] (values : List α) :
    fillLoop values values.length 0 (List.replicate values.length 0) = some values := by
  rw [fillLoop_eq values values.length 0 _ (by simp) (by simp)]
  simp

/-- C7: for values of the length of the DOF index list and no transform,
`SetDesired` completes, sends the values as an absolute-position request, and
answers `true` exactly when the move call completed and the response has
`ok = true`, whatever the reason string is. -/
theorem C7_SetDesired_result {α : Type} [Zero α] (self : State α) (values : List α)
    (srv_move : MoveHandRequest α → CallOutcome)
    (hlen : values.length = self.dof_indices_.length) :
    ∃ b s', SetDesired self values none srv_move = some (b, s') ∧
      (b = true ↔
        ((srv_move { movetype := MoveType.movetype_position,
                     positions := values }).completed = true ∧
         (srv_move { movetype := MoveType.movetype_position,
                     positions := values }).response.ok = true)) := by
  have hfill := fillLoop_values values
  rw [hlen] at hfill
  simp only [SetDesired, hlen, decide_True, Option.isNone_none, Bool.and_self, if_true, hfill]
  generalize srv_move { movetype := MoveType.movetype_position, positions := values } = out
  rcases out with ⟨completed, ok, reason⟩
  cases completed <;> cases ok <;> by_cases hr : reason.isEmpty = true <;> simp [hr]

/-- The values `[1, 2, 3, 4]` sent to the jammed hand driver. -/
theorem C7_SetDesired_result_witness :
    ∃ b s', SetDesired sampleHand [1, 2, 3, 4] none jamService = some (b, s') ∧
      (b = true ↔
        ((jamService { movetype := MoveType.movetype_position,
                       positions := [1, 2, 3, 4] }).completed = true ∧
         (jamService { movetype := MoveType.movetype_position,
                       positions := [1, 2, 3, 4] }).response.ok = true)) :=
  C7_SetDesired_result sampleHand [1, 2, 3, 4] jamService rfl

/-- The scenario of the specification: the move call answers
`ok = false, reason = "jam"`; `SetDesired` answers `false` and logs "jam". -/
theorem SetDesired_jam :
    SetDesired sampleHand [1, 2, 3, 4] none jamService =
      some (false, { sampleHand with log_ := [LogEntry.moveFailedReason "jam"] }) := by
  decide

/-- `Reset` clears the cache and keeps the DOF index list and the robot. -/
theorem Reset_fields {α : Type} (self : State α) (options : Int)
    (srv_reset : ResetHandRequest → CallOutcome) :
    (Reset self options srv_reset).current_bhstate_ = none ∧
    (Reset self options srv_reset).dof_indices_ = self.dof_indices_ ∧
    (Reset self options srv_reset).robot_ = self.robot_ := by
  unfold Reset
  simp only
  split
  · exact ⟨rfl, rfl, rfl⟩
  · split <;> exact ⟨rfl, rfl, rfl⟩

/-- C8: whatever the reset call does, after `Reset` the cache is absent, the
DOF index list and the robot handle are as before, and `IsDone` answers
`true`. -/
theorem C8_Reset_clears_cache {α : Type} (self : State α) (options : Int)
    (srv_reset : ResetHandRequest → CallOutcome) (state_done : Nat) :
    (Reset self options srv_reset).current_bhstate_ = none ∧
    (Reset self options srv_reset).dof_indices_ = self.dof_indices_ ∧
    (Reset self options srv_reset).robot_ = self.robot_ ∧
    IsDone state_done (Reset self options srv_reset) = true := by
  have h := Reset_fields self options srv_reset
  refine ⟨h.1, h.2.1, h.2.2, ?_⟩
  simp [IsDone, h.1]

/-- The reset call failing without a reason: the cache is cleared and the
generic failure is logged. -/
theorem Reset_dead_service :
    Reset sampleHandA 0 deadService = { sampleHand with log_ := [LogEntry.resetFailed] } := by
  decide

/-! ## Invariants -/

/-- C9, as stated, fails: from an absent cache the run `notifA` (stamp 10),
`notifB` (stamp 5), `notifD` (stamp 7) has the cache present with stamp 10
after the first notification and present with stamp 7 after the third. -/
theorem C9_counterexample :
    sampleHand.current_bhstate_ = none ∧
    (callAvailable sampleHand ([notifA, notifB, notifD].take 1)).current_bhstate_
      = some notifA ∧
    (callAvailable sampleHand ([notifA, notifB, notifD].take 3)).current_bhstate_
      = some notifD ∧
    ¬ Time.le notifA.header.stamp notifD.header.stamp := by
  decide

/-- C9, amended: over a run of notifications from an absent cache, when the
cache is present with stamp `t1` after `i` notifications, present with stamp
`t2` after `j ≥ i` notifications, and not absent at any point in between, then
`t1 ≤ t2`. -/
theorem C9_stamps_monotone_while_present {α : Type} (s : State α)
    (msgs : List (BHState α)) (i j : Nat) (c1 c2 : BHState α)
    (_habsent : s.current_bhstate_ = none)
    (hij : i ≤ j) (hj : j ≤ msgs.length)
    (hpresent : ∀ k, i ≤ k → k ≤ j →
      (callAvailable s (msgs.take k)).current_bhstate_ ≠ none)
    (h1 : (callAvailable s (msgs.take i)).current_bhstate_ = some c1)
    (h2 : (callAvailable s (msgs.take j)).current_bhstate_ = some c2) :
    Time.le c1.header.stamp c2.header.stamp := by
  induction j, hij using Nat.le_induction generalizing c2 with
  | base =>
    rw [h1] at h2
    simp only [Option.some.injEq] at h2
    rw [h2]; exact Time.le_refl _
  | succ j hij ih =>
    have hjlt : j < msgs.length := by omega
    have hpj := hpresent j hij (Nat.le_succ j)
    obtain ⟨c, hc⟩ := Option.ne_none_iff_exists'.mp hpj
    have hle1 := ih c (by omega)
      (fun k hik hkj => hpresent k hik (Nat.le_succ_of_le hkj)) hc
    rw [List.take_succ, List.getElem?_eq_getElem hjlt, Option.toList_some,
      callAvailable_snoc] at h2
    exact Time.le_trans hle1 (bhstateCallback_stamp_le _ _ c c2 hc h2)

/-- The run `notifA`, `notifC`: the cache is present after one and after two notifications. -/
theorem C9_stamps_monotone_while_present_witness :
    Time.le notifA.header.stamp notifC.header.stamp :=
  C9_stamps_monotone_while_present sampleHand [notifA, notifC] 1 2 notifA notifC rfl
    (by decide) (by decide)
    (by
      intro k h1 h2
      have hk : k = 1 ∨ k = 2 := by omega
      rcases hk with rfl | rfl <;> decide)
    (by decide) (by decide)

/-- The drain keeps invariant I1. -/
theorem callAvailable_invariant {α : Type} (pending : List (BHState α)) (s : State α)
    (hinv : InvariantI1 s) : InvariantI1 (callAvailable s pending) := by
  induction pending generalizing s with
  | nil => exact hinv
  | cons m ms ih => exact ih (bhstateCallback s m) (bhstateCallback_positions_length s m hinv)

/-- A completed step leaves the cache and the DOF index list as the drain
left them. -/
theorem SimulationStep_fields {α : Type} (s s' : State α) (t : α)
    (pending : List (BHState α)) (h : SimulationStep s t pending = some s') :
    s'.current_bhstate_ = (callAvailable s pending).current_bhstate_ ∧
    s'.dof_indices_ = (callAvailable s pending).dof_indices_ := by
  simp only [SimulationStep] at h
  split at h
  · split at h
    · split at h
      · simp only [Option.some.injEq] at h
        subst h
        exact ⟨rfl, rfl⟩
      · simp at h
    · simp at h
  · simp only [Option.some.injEq] at h
    subst h
    exact ⟨rfl, rfl⟩

/-- A completed `SetDesired` leaves the cache and the DOF index list alone. -/
theorem SetDesired_fields {α : Type} [Zero α] (s s' : State α) (values : List α)
    (transform : Option Unit) (srv_move : MoveHandRequest α → CallOutcome) (b : Bool)
    (h : SetDesired s values transform srv_move = some (b, s')) :
    s'.current_bhstate_ = s.current_bhstate_ ∧ s'.dof_indices_ = s.dof_indices_ := by
  simp only [SetDesired] at h
  split at h
  · split at h
    · split at h
      · simp only [Option.some.injEq, Prod.mk.injEq] at h
        rw [← h.2]; exact ⟨rfl, rfl⟩
      · split at h
        · simp only [Option.some.injEq, Prod.mk.injEq] at h
          rw [← h.2]; exact ⟨rfl, rfl⟩
        · simp only [Option.some.injEq, Prod.mk.injEq] at h
          rw [← h.2]; exact ⟨rfl, rfl⟩
    · simp at h
  · simp at h

/-- Every reachable state has four DOF indices and satisfies invariant I1. -/
theorem reachable_invariant {α : Type} [Zero α] (s : State α) (h : Reachable s) :
    s.dof_indices_.length = 4 ∧ InvariantI1 s := by
  induction h with
  | init robot dof_indices ctrl_transform s hinit =>
    simp only [Init] at hinit
    split at hinit
    · split at hinit
      · rename_i h4
        simp only [Option.some.injEq, Prod.mk.injEq, true_and] at hinit
        subst hinit
        exact ⟨h4, fun cur hcur => by simp [construct] at hcur⟩
      · simp at hinit
    · simp at hinit
  | callback s m _ ih =>
    exact ⟨by rw [bhstateCallback_dof_indices]; exact ih.1,
      bhstateCallback_positions_length s m ih.2⟩
  | step s s' t pending _ hstep ih =>
    obtain ⟨hc, hd⟩ := SimulationStep_fields s s' t pending hstep
    have hinv := callAvailable_invariant pending s ih.2
    refine ⟨by rw [hd, callAvailable_dof_indices]; exact ih.1, ?_⟩
    intro cur hcur
    rw [hc] at hcur
    rw [hd]
    exact hinv cur hcur
  | reset s options srv_reset _ ih =>
    obtain ⟨hc, hd, _⟩ := Reset_fields s options srv_reset
    exact ⟨by rw [hd]; exact ih.1, fun cur hcur => by rw [hc] at hcur; simp at hcur⟩
  | setDesired s s' values transform srv_move b _ hset ih =>
    obtain ⟨hc, hd⟩ := SetDesired_fields s s' values transform srv_move b hset
    refine ⟨by rw [hd]; exact ih.1, ?_⟩
    intro cur hcur
    rw [hc] at hcur
    rw [hd]
    exact ih.2 cur hcur
  | setPath s traj _ ih =>
    exact ⟨ih.1, ih.2⟩

/-- C10 (invariant I1): in every state reachable from a successful `Init`
through the notification handler, `SimulationStep`, `Reset`, `SetDesired` and
`SetPath`, the DOF index list has four entries and a cached state has as many
positions as the DOF index list has entries, so that every read
`positions[index]` of the copy loop is within bounds. -/
theorem C10_reachable_cache_shape {α : Type} [Zero α] (s : State α) (h : Reachable s) :
    s.dof_indices_.length = 4 ∧
    ∀ cur, s.current_bhstate_ = some cur →
      cur.positions.length = s.dof_indices_.length ∧
      ∀ index, index < s.dof_indices_.length → ∃ p, cur.positions[index]? = some p := by
  obtain ⟨h4, hinv⟩ := reachable_invariant s h
  refine ⟨h4, ?_⟩
  intro cur hcur
  have hl := hinv cur hcur
  refine ⟨hl, ?_⟩
  intro index hindex
  exact ⟨cur.positions[index], List.getElem?_eq_getElem (by omega)⟩

/-- The state reached by `Init` followed by the notification `notifA`. -/
theorem C10_reachable_cache_shape_witness :
    (bhstateCallback sampleHand notifA).dof_indices_.length = 4 ∧
    ∀ cur, (bhstateCallback sampleHand notifA).current_bhstate_ = some cur →
      cur.positions.length = (bhstateCallback sampleHand notifA).dof_indices_.length ∧
      ∀ index, index < (bhstateCallback sampleHand notifA).dof_indices_.length →
        ∃ p, cur.positions[index]? = some p :=
  C10_reachable_cache_shape (bhstateCallback sampleHand notifA)
    (Reachable.callback sampleHand notifA
      (Reachable.init (some sampleRobot) [3, 4, 5, 6] 0 sampleHand (by decide)))

end BHController
